import Mathlib

/-!
Verification of the PCM16 ⇄ float32 sample codec implemented in
`src/cpp/FluidAudioTurboModule.cpp` (`AudioBufferUtils::pcm16ToFloat` and
`AudioBufferUtils::floatToPcm16`).

Modelling notes.
* Byte buffers are `List ℕ` (each element a byte value), float sample
  sequences are `List FVal`, where `FVal` distinguishes finite IEEE-754
  values (carried as exact rationals) from NaN and the two infinities,
  because `floatToPcm16` clamps with `std::min`/`std::max`, whose behaviour
  on NaN is determined by the IEEE `<` comparison.
* Every float operation performed by `pcm16ToFloat` is exact in IEEE-754
  single precision: an `int16_t` converts to `float` exactly (16 < 24
  significand bits) and division by the power of two `32768.0f` is exact,
  so modelling decode over ℚ is bit-faithful.  In `floatToPcm16`, the
  comparisons of the clamp are exact, and the product
  `clamped * 32767.0f` is a binary32 multiplication: it rounds the exact
  product to the nearest 24-bit-significand value, ties to even.  That
  rounding is modelled by `fl32`.
* `fl32` rounds with an unbounded exponent range, which coincides with
  binary32 on every product the program can form: `|clamped| ≤ 1`, so the
  result magnitude is at most 32767 (no overflow or infinity), and when a
  product `c * 32767` of a representable `c` lands below the normal range
  `2^-126` then `c` is subnormal, `c = j * 2^-149` with `32767 * j < 2^23`,
  so the product is exactly representable (both as a subnormal and by
  `fl32`) and no double-rounding discrepancy arises.
* `static_cast<int16_t>` of a float value truncates toward zero
  (`ratTrunc`); the clamp guarantees the value is in range, so the C++
  conversion is well defined.
* The machine is little-endian (the only layout the module supports), so
  `reinterpret_cast<const int16_t*>` reads bytes `2i` (low) and `2i+1`
  (high), and the writes through `reinterpret_cast<int16_t*>` store the low
  byte first.  Bytes of a negative `int16_t` are its two's-complement
  representation, i.e. the value modulo 2^16.
-/

namespace FluidAudio

/-- A 32-bit float input value: finite values carried as exact rationals,
plus NaN and the two infinities. -/
inductive FVal where
  | finite (q : ℚ)
  | nan
  | inf
  | neginf
deriving DecidableEq

/-- IEEE-754 `<` on float values: any comparison involving NaN is false;
`-inf` is below every non-NaN value, `+inf` above every finite value. -/
def fltB : FVal → FVal → Bool
  | FVal.nan, _ => false
  | _, FVal.nan => false
  | FVal.neginf, FVal.neginf => false
  | FVal.neginf, _ => true
  | _, FVal.neginf => false
  | FVal.inf, _ => false
  | _, FVal.inf => true
  | FVal.finite a, FVal.finite b => decide (a < b)

/-- C++ `std::min(a, b)`, which returns `b < a ? b : a`. -/
def stdMin (a b : FVal) : FVal := if fltB b a then b else a

/-- C++ `std::max(a, b)`, which returns `a < b ? b : a`. -/
def stdMax (a b : FVal) : FVal := if fltB a b then b else a

/-- The clamp `std::max(-1.0f, std::min(1.0f, samples[i]))` from
`AudioBufferUtils::floatToPcm16`. -/
def clampF (s : FVal) : FVal := stdMax (FVal.finite (-1)) (stdMin (FVal.finite 1) s)

/-- Numeric value of the clamp result.  `clampF` always returns a finite
value (proved in `clampF_eq_finite`); the default branch is never hit. -/
def clampQ (s : FVal) : ℚ :=
  match clampF s with
  | FVal.finite c => c
  | _ => 0

/-- The C++ float-to-integer cast `static_cast<int16_t>`: truncation toward
zero (well defined here because the operand is always in range). -/
def ratTrunc (q : ℚ) : ℤ := if 0 ≤ q then ⌊q⌋ else ⌈q⌉

/-- Round a rational to the nearest integer, ties to even (the rounding of
the significand performed by IEEE-754 round-to-nearest-even). -/
def rne (x : ℚ) : ℤ :=
  if x - ⌊x⌋ < 1/2 then ⌊x⌋
  else if 1/2 < x - ⌊x⌋ then ⌊x⌋ + 1
  else if 2 ∣ ⌊x⌋ then ⌊x⌋ else ⌊x⌋ + 1

/-- IEEE-754 binary32 rounding (round to nearest, ties to even): the input
is scaled into `[2^23, 2^24)`, rounded to an integer significand with
`rne`, and scaled back.  The exponent range is unbounded, which agrees
with binary32 on every value produced by this program (see the header
note: no product can overflow, and subnormal-range products of
representable inputs are exact). -/
def fl32 (q : ℚ) : ℚ :=
  if q = 0 then 0
  else (rne (q * 2 ^ (23 - Int.log 2 |q|)) : ℚ) * 2 ^ (Int.log 2 |q| - 23)

/-- The `int16_t` written for one sample:
`static_cast<int16_t>(clamped * 32767.0f)` — the product is computed in
binary32 (`fl32`), then truncated toward zero by the cast. -/
def encSample (s : FVal) : ℤ := ratTrunc (fl32 (clampQ s * 32767))

/-- Low byte of the little-endian two's-complement representation of an
`int16_t` value. -/
def loByte (v : ℤ) : ℕ := (v % 65536).toNat % 256

/-- High byte of the little-endian two's-complement representation of an
`int16_t` value. -/
def hiByte (v : ℤ) : ℕ := (v % 65536).toNat / 256

/-- The two bytes stored for one `int16_t`, low byte first (little-endian
store through `reinterpret_cast<int16_t*>`). -/
def bytesOfInt16 (v : ℤ) : List ℕ := [loByte v, hiByte v]

/-- `AudioBufferUtils::floatToPcm16`: a byte vector of `2 * samples.size()`
entries, sample `i` written as an `int16_t` at byte offset `2i`. -/
def floatToPcm16 (samples : List FVal) : List ℕ :=
  samples.flatMap (fun s => bytesOfInt16 (encSample s))

/-- The `int16_t` read from two consecutive bytes, low byte first:
the unsigned 16-bit value reinterpreted in two's complement. -/
def int16OfBytes (b0 b1 : ℕ) : ℤ :=
  if b0 + 256 * b1 < 32768 then (b0 + 256 * b1 : ℤ)
  else (b0 + 256 * b1 : ℤ) - 65536

/-- One decoded sample: `static_cast<float>(pcmData[i]) / 32768.0f`
(exact in single precision). -/
def decSample (b0 b1 : ℕ) : ℚ := (int16OfBytes b0 b1 : ℚ) / 32768

/-- `AudioBufferUtils::pcm16ToFloat`: `byteLength / 2` samples, sample `i`
read from bytes `2i` and `2i+1`. -/
def pcm16ToFloat (data : List ℕ) : List ℚ :=
  (List.range (data.length / 2)).map
    (fun i => decSample (data.getD (2 * i) 0) (data.getD (2 * i + 1) 0))

/-- One-sample round trip `decode(encode([s]))[0]` for a finite sample
value `s`. -/
def roundTrip (s : ℚ) : ℚ :=
  (pcm16ToFloat (floatToPcm16 [FVal.finite s])).getD 0 0

/-! ### Helper lemmas -/

lemma pcm16ToFloat_length (bs : List ℕ) :
    (pcm16ToFloat bs).length = bs.length / 2 := by
  simp [pcm16ToFloat]

lemma floatToPcm16_nil : floatToPcm16 [] = [] := rfl

lemma floatToPcm16_cons (s : FVal) (ss : List FVal) :
    floatToPcm16 (s :: ss) =
      loByte (encSample s) :: hiByte (encSample s) :: floatToPcm16 ss := by
  simp [floatToPcm16, bytesOfInt16]

lemma floatToPcm16_length (ss : List FVal) :
    (floatToPcm16 ss).length = 2 * ss.length := by
  induction ss with
  | nil => rfl
  | cons a tl ih => simp [floatToPcm16_cons, ih]; ring

lemma clampF_eq_finite (s : FVal) :
    clampF s = FVal.finite (clampQ s) := by
  cases s with
  | finite q =>
      simp only [clampF, clampQ, stdMin, stdMax, fltB]
      split_ifs <;> simp_all
  | nan => rfl
  | inf => rfl
  | neginf => rfl

lemma clampQ_finite_of_mem (q : ℚ) (h1 : -1 ≤ q) (h2 : q ≤ 1) :
    clampQ (FVal.finite q) = q := by
  simp only [clampQ, clampF, stdMin, stdMax, fltB]
  split_ifs <;> simp_all <;> linarith

lemma clampQ_mem (s : FVal) : -1 ≤ clampQ s ∧ clampQ s ≤ 1 := by
  cases s with
  | finite q =>
      simp only [clampQ, clampF, stdMin, stdMax, fltB]
      split_ifs <;> simp_all <;> constructor <;> linarith
  | nan => norm_num [clampQ, clampF, stdMin, stdMax, fltB]
  | inf => norm_num [clampQ, clampF, stdMin, stdMax, fltB]
  | neginf => norm_num [clampQ, clampF, stdMin, stdMax, fltB]

lemma ratTrunc_le (q : ℚ) (b : ℤ) (h : q ≤ b) : ratTrunc q ≤ b := by
  unfold ratTrunc
  split_ifs with h0
  · exact le_trans (Int.floor_le_floor h) (by simp)
  · exact Int.ceil_le.mpr h

lemma le_ratTrunc (q : ℚ) (b : ℤ) (h : (b : ℚ) ≤ q) : b ≤ ratTrunc q := by
  unfold ratTrunc
  split_ifs with h0
  · exact Int.le_floor.mpr h
  · exact le_trans (le_of_eq (Int.ceil_intCast b).symm) (Int.ceil_le_ceil h)

lemma ratTrunc_intCast (n : ℤ) : ratTrunc (n : ℚ) = n := by
  unfold ratTrunc
  split_ifs <;> simp

lemma rne_intCast (n : ℤ) : rne (n : ℚ) = n := by
  norm_num [rne]

lemma rne_cases (x : ℚ) : rne x = ⌊x⌋ ∨ rne x = ⌊x⌋ + 1 := by
  unfold rne
  split_ifs <;> simp

lemma le_rne (x : ℚ) : ⌊x⌋ ≤ rne x := by
  rcases rne_cases x with h | h <;> omega

lemma rne_le (x : ℚ) : rne x ≤ ⌊x⌋ + 1 := by
  rcases rne_cases x with h | h <;> omega

lemma rne_mono {x y : ℚ} (h : x ≤ y) : rne x ≤ rne y := by
  rcases lt_or_le ⌊x⌋ ⌊y⌋ with hf | hf
  · calc rne x ≤ ⌊x⌋ + 1 := rne_le x
      _ ≤ ⌊y⌋ := by omega
      _ ≤ rne y := le_rne y
  · have hfe : ⌊x⌋ = ⌊y⌋ := le_antisymm (Int.floor_le_floor h) hf
    unfold rne
    rw [hfe]
    split_ifs <;> first | omega | linarith

lemma floor_neg_of_lt (x : ℚ) (hx : (⌊x⌋ : ℚ) < x) : ⌊-x⌋ = -⌊x⌋ - 1 := by
  rw [Int.floor_eq_iff]
  constructor
  · push_cast
    have := Int.lt_floor_add_one x
    linarith
  · push_cast
    linarith

lemma rne_neg (x : ℚ) : rne (-x) = -rne x := by
  rcases eq_or_lt_of_le (Int.floor_le x) with heq | hlt
  · have hx : x = (⌊x⌋ : ℚ) := heq.symm
    rw [hx, ← Int.cast_neg, rne_intCast, rne_intCast]
  · have hfl : ⌊-x⌋ = -⌊x⌋ - 1 := floor_neg_of_lt x hlt
    unfold rne
    rw [hfl]
    push_cast
    split_ifs <;> first | omega | linarith

lemma fl32_zero : fl32 0 = 0 := rfl

lemma two_zpow_log_le (q : ℚ) (hq : 0 < q) : (2:ℚ) ^ (Int.log 2 q) ≤ q := by
  exact_mod_cast Int.zpow_log_le_self (b := 2) (by norm_num) hq

lemma lt_two_zpow_log_succ (q : ℚ) : q < (2:ℚ) ^ (Int.log 2 q + 1) := by
  exact_mod_cast Int.lt_zpow_succ_log_self (b := 2) (by norm_num) q

lemma fl32_scale_bounds (q : ℚ) (hq : 0 < q) :
    (2:ℚ) ^ (23:ℤ) ≤ q * 2 ^ (23 - Int.log 2 q) ∧
    q * 2 ^ (23 - Int.log 2 q) < 2 ^ (24:ℤ) := by
  have h1 := two_zpow_log_le q hq
  have h2 := lt_two_zpow_log_succ q
  have hp : (0:ℚ) < 2 ^ (23 - Int.log 2 q) := zpow_pos (by norm_num) _
  constructor
  · calc (2:ℚ) ^ (23:ℤ) = 2 ^ (Int.log 2 q) * 2 ^ (23 - Int.log 2 q) := by
            rw [← zpow_add₀ (by norm_num : (2:ℚ) ≠ 0)]
            congr 1
            omega
      _ ≤ q * 2 ^ (23 - Int.log 2 q) := mul_le_mul_of_nonneg_right h1 (le_of_lt hp)
  · calc q * 2 ^ (23 - Int.log 2 q)
        < 2 ^ (Int.log 2 q + 1) * 2 ^ (23 - Int.log 2 q) := mul_lt_mul_of_pos_right h2 hp
      _ = 2 ^ (24:ℤ) := by
            rw [← zpow_add₀ (by norm_num : (2:ℚ) ≠ 0)]
            congr 1
            omega

lemma fl32_pos_bounds (q : ℚ) (hq : 0 < q) :
    (2:ℚ) ^ (Int.log 2 q) ≤ fl32 q ∧ fl32 q ≤ 2 ^ (Int.log 2 q + 1) := by
  obtain ⟨hs1, hs2⟩ := fl32_scale_bounds q hq
  unfold fl32
  rw [if_neg (ne_of_gt hq), abs_of_pos hq]
  have hfl : (2 ^ 23 : ℤ) ≤ ⌊q * 2 ^ (23 - Int.log 2 q)⌋ := by
    apply Int.le_floor.mpr
    calc ((2 ^ 23 : ℤ) : ℚ) = 2 ^ (23:ℤ) := by push_cast; norm_num
      _ ≤ _ := hs1
  have hup : ⌊q * 2 ^ (23 - Int.log 2 q)⌋ < (2 ^ 24 : ℤ) := by
    apply Int.floor_lt.mpr
    calc q * 2 ^ (23 - Int.log 2 q) < 2 ^ (24:ℤ) := hs2
      _ = ((2 ^ 24 : ℤ) : ℚ) := by push_cast; norm_num
  have hr1 : (2 ^ 23 : ℤ) ≤ rne (q * 2 ^ (23 - Int.log 2 q)) :=
    le_trans hfl (le_rne _)
  have hr2 : rne (q * 2 ^ (23 - Int.log 2 q)) ≤ 2 ^ 24 := by
    have := rne_le (q * 2 ^ (23 - Int.log 2 q))
    omega
  have hz : (0:ℚ) ≤ 2 ^ (Int.log 2 q - 23) := le_of_lt (zpow_pos (by norm_num) _)
  constructor
  · calc (2:ℚ) ^ (Int.log 2 q) = 2 ^ (23:ℤ) * 2 ^ (Int.log 2 q - 23) := by
            rw [← zpow_add₀ (by norm_num : (2:ℚ) ≠ 0)]
            congr 1
            omega
      _ ≤ (rne (q * 2 ^ (23 - Int.log 2 q)) : ℚ) * 2 ^ (Int.log 2 q - 23) := by
          apply mul_le_mul_of_nonneg_right _ hz
          calc (2:ℚ) ^ (23:ℤ) = ((2 ^ 23 : ℤ) : ℚ) := by push_cast; norm_num
            _ ≤ _ := by exact_mod_cast hr1
  · calc (rne (q * 2 ^ (23 - Int.log 2 q)) : ℚ) * 2 ^ (Int.log 2 q - 23)
        ≤ 2 ^ (24:ℤ) * 2 ^ (Int.log 2 q - 23) := by
          apply mul_le_mul_of_nonneg_right _ hz
          calc ((rne (q * 2 ^ (23 - Int.log 2 q)) : ℤ) : ℚ) ≤ ((2 ^ 24 : ℤ) : ℚ) := by
                exact_mod_cast hr2
            _ = 2 ^ (24:ℤ) := by push_cast; norm_num
      _ = 2 ^ (Int.log 2 q + 1) := by
            rw [← zpow_add₀ (by norm_num : (2:ℚ) ≠ 0)]
            congr 1
            omega

lemma fl32_pos (q : ℚ) (hq : 0 < q) : 0 < fl32 q :=
  lt_of_lt_of_le (zpow_pos (by norm_num) _) (fl32_pos_bounds q hq).1

lemma fl32_neg_eq (q : ℚ) : fl32 (-q) = -fl32 q := by
  rcases eq_or_ne q 0 with rfl | hq
  · simp [fl32]
  · unfold fl32
    rw [if_neg (neg_ne_zero.mpr hq), if_neg hq, abs_neg, neg_mul, rne_neg]
    push_cast
    ring

lemma fl32_rep (m k : ℤ) (hm : m ≠ 0) (hb : |m| < 2 ^ 24) :
    fl32 ((m : ℚ) * 2 ^ k) = (m : ℚ) * 2 ^ k := by
  have hzp : (0:ℚ) < 2 ^ k := zpow_pos (by norm_num) k
  have hqne : (m : ℚ) * 2 ^ k ≠ 0 :=
    mul_ne_zero (Int.cast_ne_zero.mpr hm) (ne_of_gt hzp)
  have habs : |(m : ℚ) * 2 ^ k| = |(m : ℚ)| * 2 ^ k := by
    rw [abs_mul, abs_of_pos hzp]
  have habs_pos : (0:ℚ) < |(m : ℚ) * 2 ^ k| := abs_pos.mpr hqne
  have hlt : |(m : ℚ) * 2 ^ k| < 2 ^ (k + 24) := by
    rw [habs]
    calc |(m : ℚ)| * 2 ^ k < 2 ^ (24:ℤ) * 2 ^ k := by
          apply mul_lt_mul_of_pos_right _ hzp
          calc |(m : ℚ)| = ((|m| : ℤ) : ℚ) := by push_cast; ring
            _ < ((2 ^ 24 : ℤ) : ℚ) := by exact_mod_cast hb
            _ = 2 ^ (24:ℤ) := by push_cast; norm_num
      _ = 2 ^ (k + 24) := by
            rw [← zpow_add₀ (by norm_num : (2:ℚ) ≠ 0)]
            congr 1
            omega
  have he_lt : Int.log 2 |(m : ℚ) * 2 ^ k| < k + 24 := by
    by_contra hc
    push_neg at hc
    have h1 : (2:ℚ) ^ (Int.log 2 |(m : ℚ) * 2 ^ k|) ≤ |(m : ℚ) * 2 ^ k| :=
      two_zpow_log_le _ habs_pos
    have h2 : (2:ℚ) ^ (k + 24) ≤ 2 ^ (Int.log 2 |(m : ℚ) * 2 ^ k|) :=
      zpow_le_zpow_right₀ (by norm_num) hc
    linarith
  set e : ℤ := Int.log 2 |(m : ℚ) * 2 ^ k| with hedef
  have hd : 0 ≤ k + 23 - e := by omega
  have hx : (m : ℚ) * 2 ^ k * 2 ^ (23 - e) =
      ((m * 2 ^ (k + 23 - e).toNat : ℤ) : ℚ) := by
    push_cast
    rw [← zpow_natCast (2:ℚ) (k + 23 - e).toNat, mul_assoc,
      ← zpow_add₀ (by norm_num : (2:ℚ) ≠ 0)]
    congr 2
    omega
  unfold fl32
  rw [if_neg hqne, ← hedef, hx, rne_intCast]
  push_cast
  rw [← zpow_natCast (2:ℚ) (k + 23 - e).toNat, mul_assoc,
    ← zpow_add₀ (by norm_num : (2:ℚ) ≠ 0)]
  congr 2
  omega

lemma fl32_intCast (n : ℤ) (hb : |n| < 2 ^ 24) : fl32 (n : ℚ) = n := by
  rcases eq_or_ne n 0 with rfl | hn
  · simp [fl32]
  · have := fl32_rep n 0 hn hb
    simpa using this

lemma fl32_mono {q1 q2 : ℚ} (h : q1 ≤ q2) : fl32 q1 ≤ fl32 q2 := by
  rcases lt_trichotomy q1 0 with hn1 | hz1 | hp1
  · rcases lt_trichotomy q2 0 with hn2 | hz2 | hp2
    · have hpos : fl32 (-q2) ≤ fl32 (-q1) := by
        have h2p : 0 < -q2 := by linarith
        have h1p : 0 < -q1 := by linarith
        have hle : -q2 ≤ -q1 := by linarith
        have he : Int.log 2 (-q2) ≤ Int.log 2 (-q1) := Int.log_mono_right h2p hle
        rcases eq_or_lt_of_le he with heq | hlt
        · unfold fl32
          rw [if_neg (ne_of_gt h2p), if_neg (ne_of_gt h1p),
            abs_of_pos h2p, abs_of_pos h1p, ← heq]
          have hs : -q2 * 2 ^ (23 - Int.log 2 (-q2)) ≤ -q1 * 2 ^ (23 - Int.log 2 (-q2)) :=
            mul_le_mul_of_nonneg_right hle (le_of_lt (zpow_pos (by norm_num) _))
          have hr : rne (-q2 * 2 ^ (23 - Int.log 2 (-q2))) ≤
              rne (-q1 * 2 ^ (23 - Int.log 2 (-q2))) := rne_mono hs
          apply mul_le_mul_of_nonneg_right _ (le_of_lt (zpow_pos (by norm_num) _))
          exact_mod_cast hr
        · calc fl32 (-q2) ≤ 2 ^ (Int.log 2 (-q2) + 1) := (fl32_pos_bounds _ h2p).2
            _ ≤ 2 ^ (Int.log 2 (-q1)) := zpow_le_zpow_right₀ (by norm_num) (by omega)
            _ ≤ fl32 (-q1) := (fl32_pos_bounds _ h1p).1
      rw [fl32_neg_eq, fl32_neg_eq] at hpos
      linarith
    · rw [hz2, fl32_zero]
      have := fl32_pos (-q1) (by linarith)
      rw [fl32_neg_eq] at this
      linarith
    · have ha := fl32_pos (-q1) (by linarith)
      rw [fl32_neg_eq] at ha
      have hbp := fl32_pos q2 hp2
      linarith
  · rw [hz1, fl32_zero]
    rcases eq_or_lt_of_le (hz1 ▸ h) with heq | hp2
    · rw [← heq, fl32_zero]
    · exact le_of_lt (fl32_pos q2 hp2)
  · have hp2 : 0 < q2 := lt_of_lt_of_le hp1 h
    have he : Int.log 2 q1 ≤ Int.log 2 q2 := Int.log_mono_right hp1 h
    rcases eq_or_lt_of_le he with heq | hlt
    · unfold fl32
      rw [if_neg (ne_of_gt hp1), if_neg (ne_of_gt hp2),
        abs_of_pos hp1, abs_of_pos hp2, ← heq]
      have hs : q1 * 2 ^ (23 - Int.log 2 q1) ≤ q2 * 2 ^ (23 - Int.log 2 q1) :=
        mul_le_mul_of_nonneg_right h (le_of_lt (zpow_pos (by norm_num) _))
      have hr : rne (q1 * 2 ^ (23 - Int.log 2 q1)) ≤
          rne (q2 * 2 ^ (23 - Int.log 2 q1)) := rne_mono hs
      apply mul_le_mul_of_nonneg_right _ (le_of_lt (zpow_pos (by norm_num) _))
      exact_mod_cast hr
    · calc fl32 q1 ≤ 2 ^ (Int.log 2 q1 + 1) := (fl32_pos_bounds _ hp1).2
        _ ≤ 2 ^ (Int.log 2 q2) := zpow_le_zpow_right₀ (by norm_num) (by omega)
        _ ≤ fl32 q2 := (fl32_pos_bounds _ hp2).1

lemma int_log_eq (q : ℚ) (z : ℤ) (hq : 0 < q) (h1 : (2:ℚ) ^ z ≤ q)
    (h2 : q < 2 ^ (z + 1)) : Int.log 2 q = z := by
  have ha := two_zpow_log_le q hq
  have hbb := lt_two_zpow_log_succ q
  by_contra hne
  rcases lt_or_gt_of_ne hne with hlt | hgt
  · have : (2:ℚ) ^ (Int.log 2 q + 1) ≤ 2 ^ z :=
      zpow_le_zpow_right₀ (by norm_num) (by omega)
    linarith
  · have : (2:ℚ) ^ (z + 1) ≤ 2 ^ (Int.log 2 q) :=
      zpow_le_zpow_right₀ (by norm_num) (by omega)
    linarith

lemma fl32_c2_input : fl32 (1073741823 / 16777216) = 64 := by
  have hlog : Int.log 2 |(1073741823 / 16777216 : ℚ)| = 5 := by
    rw [abs_of_pos (by norm_num)]
    exact int_log_eq _ 5 (by norm_num) (by norm_num) (by norm_num)
  unfold fl32
  rw [if_neg (by norm_num), hlog]
  have hr : rne (1073741823 / 16777216 * 2 ^ (23 - 5 : ℤ)) = 16777216 := by
    have hx : (1073741823 / 16777216 * 2 ^ (23 - 5 : ℤ) : ℚ) = 1073741823 / 64 := by
      norm_num
    rw [hx]
    have hfx : ⌊(1073741823 / 64 : ℚ)⌋ = 16777215 := by
      norm_num
    unfold rne
    rw [hfx]
    norm_num
  rw [hr]
  norm_num

lemma fl32_c5_input : fl32 (247382559949 / 8388608) = 15099033 / 512 := by
  have hlog : Int.log 2 |(247382559949 / 8388608 : ℚ)| = 14 := by
    rw [abs_of_pos (by norm_num)]
    exact int_log_eq _ 14 (by norm_num) (by norm_num) (by norm_num)
  unfold fl32
  rw [if_neg (by norm_num), hlog]
  have hr : rne (247382559949 / 8388608 * 2 ^ (23 - 14 : ℤ)) = 15099033 := by
    have hx : (247382559949 / 8388608 * 2 ^ (23 - 14 : ℤ) : ℚ) = 247382559949 / 16384 := by
      norm_num
    rw [hx]
    have hfx : ⌊(247382559949 / 16384 : ℚ)⌋ = 15099033 := by
      norm_num
    unfold rne
    rw [hfx]
    norm_num
  rw [hr]
  norm_num

lemma ratTrunc_fl32_int (n : ℤ) (hb : |n| < 2 ^ 24) :
    ratTrunc (fl32 (n : ℚ)) = n := by
  rw [fl32_intCast n hb, ratTrunc_intCast]

lemma ratTrunc_fl32_bounds (t : ℚ) (hlo : -32767 ≤ t) (hhi : t ≤ 32767) :
    (t - 1 : ℚ) < (ratTrunc (fl32 t) : ℤ) ∧ ((ratTrunc (fl32 t) : ℤ) : ℚ) < t + 1 := by
  rcases le_or_lt 0 t with hpos | hneg
  · have hnlo : (0:ℤ) ≤ ⌊t⌋ := Int.le_floor.mpr (by exact_mod_cast hpos)
    have hnhi : ⌊t⌋ ≤ 32767 := by
      have := Int.floor_le_floor hhi
      simpa using this
    have e1 : fl32 ((⌊t⌋ : ℤ) : ℚ) = ((⌊t⌋ : ℤ) : ℚ) :=
      fl32_intCast _ (by rw [abs_of_nonneg hnlo]; omega)
    have e2 : fl32 ((⌊t⌋ + 1 : ℤ) : ℚ) = ((⌊t⌋ + 1 : ℤ) : ℚ) :=
      fl32_intCast _ (by rw [abs_of_nonneg (by omega)]; omega)
    have hfl_lo : ((⌊t⌋ : ℤ) : ℚ) ≤ fl32 t := e1 ▸ fl32_mono (Int.floor_le t)
    have hfl_hi : fl32 t ≤ ((⌊t⌋ + 1 : ℤ) : ℚ) := by
      have := fl32_mono (le_of_lt (Int.lt_floor_add_one t))
      rw [show ((⌊t⌋ : ℚ) + 1) = ((⌊t⌋ + 1 : ℤ) : ℚ) by push_cast; ring] at this
      rw [e2] at this
      exact this
    have hv_lo : ⌊t⌋ ≤ ratTrunc (fl32 t) := le_ratTrunc _ _ hfl_lo
    have hv_hi : ratTrunc (fl32 t) ≤ ⌊t⌋ + 1 := ratTrunc_le _ _ (by exact_mod_cast hfl_hi)
    constructor
    · have h1 : (t - 1 : ℚ) < ⌊t⌋ := Int.sub_one_lt_floor t
      have h2 : ((⌊t⌋ : ℤ) : ℚ) ≤ ratTrunc (fl32 t) := by exact_mod_cast hv_lo
      linarith
    · rcases eq_or_lt_of_le (Int.floor_le t) with heq | hlt
      · have hft : fl32 t = t := by
          rw [← heq]
          exact e1
        rw [hft, ← heq, ratTrunc_intCast]
        linarith
      · have h2 : ((ratTrunc (fl32 t) : ℤ) : ℚ) ≤ ((⌊t⌋ + 1 : ℤ) : ℚ) := by
          exact_mod_cast hv_hi
        push_cast at h2
        linarith
  · have hm_hi : ⌈t⌉ ≤ 0 := Int.ceil_le.mpr (by exact_mod_cast le_of_lt hneg)
    have hm_lo : -32767 ≤ ⌈t⌉ := by
      have := Int.ceil_le_ceil hlo
      simpa using this
    have e1 : fl32 ((⌈t⌉ : ℤ) : ℚ) = ((⌈t⌉ : ℤ) : ℚ) :=
      fl32_intCast _ (by rw [abs_of_nonpos (by exact_mod_cast hm_hi)]; omega)
    have e2 : fl32 ((⌈t⌉ - 1 : ℤ) : ℚ) = ((⌈t⌉ - 1 : ℤ) : ℚ) :=
      fl32_intCast _ (by rw [abs_of_nonpos (by omega)]; omega)
    have hfl_hi : fl32 t ≤ ((⌈t⌉ : ℤ) : ℚ) := e1 ▸ fl32_mono (Int.le_ceil t)
    have hfl_lo : ((⌈t⌉ - 1 : ℤ) : ℚ) ≤ fl32 t := by
      have harg : ((⌈t⌉ - 1 : ℤ) : ℚ) ≤ t := by
        have := Int.ceil_lt_add_one t
        push_cast
        linarith
      have := fl32_mono harg
      rw [e2] at this
      exact this
    have hv_hi : ratTrunc (fl32 t) ≤ ⌈t⌉ := ratTrunc_le _ _ hfl_hi
    have hv_lo : ⌈t⌉ - 1 ≤ ratTrunc (fl32 t) := le_ratTrunc _ _ hfl_lo
    constructor
    · rcases eq_or_lt_of_le (Int.le_ceil t) with heq | hlt
      · have hft : fl32 t = t := by
          rw [heq]
          exact e1
        rw [hft, heq, ratTrunc_intCast]
        linarith
      · have h2 : ((⌈t⌉ - 1 : ℤ) : ℚ) ≤ ((ratTrunc (fl32 t) : ℤ) : ℚ) := by
          exact_mod_cast hv_lo
        push_cast at h2
        linarith
    · have h1 : ((ratTrunc (fl32 t) : ℤ) : ℚ) ≤ ⌈t⌉ := by exact_mod_cast hv_hi
      have h2 : ((⌈t⌉ : ℤ) : ℚ) < t + 1 := Int.ceil_lt_add_one t
      linarith

lemma encSample_range (s : FVal) :
    -32767 ≤ encSample s ∧ encSample s ≤ 32767 := by
  obtain ⟨h1, h2⟩ := clampQ_mem s
  unfold encSample
  have hf1 : fl32 (clampQ s * 32767) ≤ ((32767:ℤ) : ℚ) := by
    calc fl32 (clampQ s * 32767) ≤ fl32 (((32767:ℤ) : ℚ)) :=
          fl32_mono (by push_cast; nlinarith)
      _ = ((32767:ℤ) : ℚ) := fl32_intCast 32767 (by decide)
  have hf2 : (((-32767:ℤ)) : ℚ) ≤ fl32 (clampQ s * 32767) := by
    calc (((-32767:ℤ)) : ℚ) = fl32 (((-32767:ℤ) : ℚ)) :=
          (fl32_intCast (-32767) (by decide)).symm
      _ ≤ fl32 (clampQ s * 32767) := fl32_mono (by push_cast; nlinarith)
  exact ⟨le_ratTrunc _ _ hf2, ratTrunc_le _ _ hf1⟩

lemma int16OfBytes_bytesOfInt16 (v : ℤ) (h1 : -32768 ≤ v) (h2 : v < 32768) :
    int16OfBytes (loByte v) (hiByte v) = v := by
  simp only [int16OfBytes, loByte, hiByte]
  split_ifs <;> omega

lemma floatToPcm16_getElem (ss : List FVal) (i : ℕ) (h : i < ss.length) :
    (floatToPcm16 ss)[2 * i]? = some (loByte (encSample (ss.get ⟨i, h⟩))) ∧
    (floatToPcm16 ss)[2 * i + 1]? = some (hiByte (encSample (ss.get ⟨i, h⟩))) := by
  induction ss generalizing i with
  | nil => simp at h
  | cons a tl ih =>
      cases i with
      | zero => simp [floatToPcm16_cons]
      | succ j =>
          have h2 : j < tl.length := by simpa using h
          have e : 2 * (j + 1) = 2 * j + 1 + 1 := by ring
          have e2 : 2 * (j + 1) + 1 = (2 * j + 1) + 1 + 1 := by ring
          constructor
          · rw [floatToPcm16_cons, e, List.getElem?_cons_succ, List.getElem?_cons_succ]
            simpa using (ih j h2).1
          · rw [floatToPcm16_cons, e2, List.getElem?_cons_succ, List.getElem?_cons_succ]
            simpa using (ih j h2).2

lemma pcm16ToFloat_getElem (bs : List ℕ) (i : ℕ) (h : i < bs.length / 2) :
    (pcm16ToFloat bs)[i]? =
      some (decSample (bs.getD (2 * i) 0) (bs.getD (2 * i + 1) 0)) := by
  simp [pcm16ToFloat, List.getElem?_map, List.getElem?_range, h]

lemma ratTrunc_bounds (q : ℚ) :
    q - 1 < (ratTrunc q : ℚ) ∧ (ratTrunc q : ℚ) < q + 1 := by
  unfold ratTrunc
  split_ifs with h0
  · exact ⟨Int.sub_one_lt_floor q, lt_of_le_of_lt (Int.floor_le q) (by linarith)⟩
  · exact ⟨lt_of_lt_of_le (by linarith) (Int.le_ceil q), Int.ceil_lt_add_one q⟩

lemma pcm16ToFloat_pair (b0 b1 : ℕ) :
    pcm16ToFloat [b0, b1] = [decSample b0 b1] := by
  simp [pcm16ToFloat, List.range_succ]

lemma roundTrip_eq (s : ℚ) :
    roundTrip s = ((encSample (FVal.finite s) : ℚ)) / 32768 := by
  obtain ⟨h1, h2⟩ := encSample_range (FVal.finite s)
  have hb := int16OfBytes_bytesOfInt16 (encSample (FVal.finite s))
    (by omega) (by omega)
  simp [roundTrip, floatToPcm16_cons, floatToPcm16_nil, pcm16ToFloat_pair,
    decSample, hb]

lemma clampQ_one : clampQ (FVal.finite 1) = 1 := by
  norm_num [clampQ, clampF, stdMin, stdMax, fltB]

lemma clampQ_three_halves : clampQ (FVal.finite (3 / 2)) = 1 := by
  norm_num [clampQ, clampF, stdMin, stdMax, fltB]

lemma clampQ_neg_one : clampQ (FVal.finite (-1)) = -1 := by
  norm_num [clampQ, clampF, stdMin, stdMax, fltB]

lemma clampQ_neg_two : clampQ (FVal.finite (-2)) = -1 := by
  norm_num [clampQ, clampF, stdMin, stdMax, fltB]

lemma clampQ_nan : clampQ FVal.nan = 1 := by
  norm_num [clampQ, clampF, stdMin, stdMax, fltB]

lemma clampQ_posinf : clampQ FVal.inf = 1 := by
  norm_num [clampQ, clampF, stdMin, stdMax, fltB]

lemma clampQ_neginf : clampQ FVal.neginf = -1 := by
  norm_num [clampQ, clampF, stdMin, stdMax, fltB]

lemma encSample_one : encSample (FVal.finite 1) = 32767 := by
  unfold encSample
  rw [clampQ_one, show ((1:ℚ) * 32767) = ((32767:ℤ) : ℚ) by push_cast; ring]
  exact ratTrunc_fl32_int 32767 (by decide)

lemma encSample_three_halves : encSample (FVal.finite (3 / 2)) = 32767 := by
  unfold encSample
  rw [clampQ_three_halves, show ((1:ℚ) * 32767) = ((32767:ℤ) : ℚ) by push_cast; ring]
  exact ratTrunc_fl32_int 32767 (by decide)

lemma encSample_neg_one : encSample (FVal.finite (-1)) = -32767 := by
  unfold encSample
  rw [clampQ_neg_one, show ((-1:ℚ) * 32767) = (((-32767:ℤ)) : ℚ) by push_cast; ring]
  exact ratTrunc_fl32_int (-32767) (by decide)

lemma encSample_neg_two : encSample (FVal.finite (-2)) = -32767 := by
  unfold encSample
  rw [clampQ_neg_two, show ((-1:ℚ) * 32767) = (((-32767:ℤ)) : ℚ) by push_cast; ring]
  exact ratTrunc_fl32_int (-32767) (by decide)

lemma encSample_nan : encSample FVal.nan = 32767 := by
  unfold encSample
  rw [clampQ_nan, show ((1:ℚ) * 32767) = ((32767:ℤ) : ℚ) by push_cast; ring]
  exact ratTrunc_fl32_int 32767 (by decide)

lemma encSample_posinf : encSample FVal.inf = 32767 := by
  unfold encSample
  rw [clampQ_posinf, show ((1:ℚ) * 32767) = ((32767:ℤ) : ℚ) by push_cast; ring]
  exact ratTrunc_fl32_int 32767 (by decide)

lemma encSample_neginf : encSample FVal.neginf = -32767 := by
  unfold encSample
  rw [clampQ_neginf, show ((-1:ℚ) * 32767) = (((-32767:ℤ)) : ℚ) by push_cast; ring]
  exact ratTrunc_fl32_int (-32767) (by decide)

lemma encSample_c2_input : encSample (FVal.finite (32769 / 16777216)) = 64 := by
  unfold encSample
  rw [clampQ_finite_of_mem _ (by norm_num) (by norm_num),
    show ((32769:ℚ) / 16777216 * 32767) = 1073741823 / 16777216 by norm_num,
    fl32_c2_input]
  unfold ratTrunc
  rw [if_pos (by norm_num)]
  norm_num

lemma encSample_c5_input : encSample (FVal.finite (7549747 / 8388608)) = 29490 := by
  unfold encSample
  rw [clampQ_finite_of_mem _ (by norm_num) (by norm_num),
    show ((7549747:ℚ) / 8388608 * 32767) = 247382559949 / 8388608 by norm_num,
    fl32_c5_input]
  unfold ratTrunc
  rw [if_pos (by norm_num)]
  norm_num

lemma loByte_32767 : loByte 32767 = 255 := by decide

lemma hiByte_32767 : hiByte 32767 = 127 := by decide

lemma floatToPcm16_single (s : FVal) :
    floatToPcm16 [s] = bytesOfInt16 (encSample s) := by
  simp [floatToPcm16_cons, floatToPcm16_nil, bytesOfInt16]

/-! ### Claim theorems -/

/-- Claim C1: for every byte buffer and every sample index `i` below
`floor(L/2)`, decode outputs sample `i` equal to the little-endian signed
16-bit integer formed from bytes `2i` and `2i+1`, divided by 32768; in
particular `decode([0x00,0x80]) = [-1]` and `decode([0x00,0x00]) = [0]`. -/
theorem c1_decode_samples :
    (∀ (bs : List ℕ) (i : ℕ), i < bs.length / 2 →
        (pcm16ToFloat bs)[i]? =
          some ((int16OfBytes (bs.getD (2 * i) 0) (bs.getD (2 * i + 1) 0) : ℚ)
            / 32768)) ∧
    pcm16ToFloat [0x00, 0x80] = [-1] ∧
    pcm16ToFloat [0x00, 0x00] = [0] := by
  refine ⟨fun bs i h => ?_, ?_, ?_⟩
  · simpa [decSample] using pcm16ToFloat_getElem bs i h
  · norm_num [pcm16ToFloat_pair, decSample, int16OfBytes]
  · norm_num [pcm16ToFloat_pair, decSample, int16OfBytes]

/-- Concrete instantiation of `c1_decode_samples` at the buffer
`[0x00, 0x80]`, sample index 0. -/
theorem c1_witness :
    0 < ([0x00, 0x80] : List ℕ).length / 2 ∧
    (pcm16ToFloat [0x00, 0x80])[0]? =
      some ((int16OfBytes (([0x00, 0x80] : List ℕ).getD 0 0)
        (([0x00, 0x80] : List ℕ).getD 1 0) : ℚ) / 32768) :=
  ⟨by norm_num, by simpa using c1_decode_samples.1 [0x00, 0x80] 0 (by norm_num)⟩

/-- Counterexample to claim C2 as stated (exact product): at the
one-sample input `s = 32769/2^24` (a representable binary32 value in
`[0, 1]`, so the clamp is the identity) the exact product is
`s * 32767 = 64 - 2^-24`, which truncates to 63, but the binary32
product rounds to `64.0f` (within half an ulp of 64), so the program
writes the bytes of int16 64 — not those of 63. -/
theorem c2_counterexample :
    (floatToPcm16 [FVal.finite (32769 / 16777216)])[2 * 0]? = some 64 ∧
    ratTrunc (clampQ (([FVal.finite (32769 / 16777216)] : List FVal).get
      ⟨0, by norm_num⟩) * 32767) = 63 ∧
    loByte 63 = 63 ∧
    ¬((floatToPcm16 [FVal.finite (32769 / 16777216)])[2 * 0]? =
        some (loByte (ratTrunc (clampQ
          (([FVal.finite (32769 / 16777216)] : List FVal).get ⟨0, by norm_num⟩)
            * 32767)))) := by
  have hcl : clampQ (FVal.finite (32769 / 16777216)) = 32769 / 16777216 :=
    clampQ_finite_of_mem _ (by norm_num) (by norm_num)
  have hspec : ratTrunc (clampQ (FVal.finite (32769 / 16777216)) * 32767) = 63 := by
    rw [hcl, show ((32769:ℚ) / 16777216 * 32767) = 1073741823 / 16777216 by norm_num]
    unfold ratTrunc
    rw [if_pos (by norm_num)]
    norm_num
  have hbytes : (floatToPcm16 [FVal.finite (32769 / 16777216)])[2 * 0]? = some 64 := by
    have hget : ([FVal.finite (32769 / 16777216)] : List FVal).get
        ⟨0, by norm_num⟩ = FVal.finite (32769 / 16777216) := rfl
    have := (floatToPcm16_getElem [FVal.finite (32769 / 16777216)] 0 (by norm_num)).1
    rw [hget, encSample_c2_input] at this
    simpa [loByte] using this
  refine ⟨hbytes, hspec, rfl, ?_⟩
  intro hcontra
  have hget : ([FVal.finite (32769 / 16777216)] : List FVal).get
      ⟨0, by norm_num⟩ = FVal.finite (32769 / 16777216) := rfl
  rw [hget, hspec] at hcontra
  rw [hbytes] at hcontra
  simp [loByte] at hcontra

/-- Claim C2 (amended): encode writes at output offsets `2i` and `2i+1`
the little-endian bytes of the signed 16-bit integer obtained by clamping
sample `i` to `[-1, 1]`, multiplying by 32767 in binary32 arithmetic
(round to nearest, ties to even — `fl32`), and truncating toward zero.
The originally claimed exact product fails by one ulp of the integer at
some inputs; see `c2_counterexample`. -/
theorem c2_encode_bytes (ss : List FVal) (i : ℕ) (h : i < ss.length) :
    (floatToPcm16 ss)[2 * i]? =
      some (loByte (ratTrunc (fl32 (clampQ (ss.get ⟨i, h⟩) * 32767)))) ∧
    (floatToPcm16 ss)[2 * i + 1]? =
      some (hiByte (ratTrunc (fl32 (clampQ (ss.get ⟨i, h⟩) * 32767)))) :=
  floatToPcm16_getElem ss i h

/-- Concrete instantiation of `c2_encode_bytes` at the one-sample input
`[1.0]`, index 0. -/
theorem c2_witness :
    0 < ([FVal.finite 1] : List FVal).length ∧
    (floatToPcm16 [FVal.finite 1])[0]? =
      some (loByte (ratTrunc (fl32
        (clampQ (([FVal.finite 1] : List FVal).get ⟨0, by norm_num⟩) * 32767)))) ∧
    (floatToPcm16 [FVal.finite 1])[1]? =
      some (hiByte (ratTrunc (fl32
        (clampQ (([FVal.finite 1] : List FVal).get ⟨0, by norm_num⟩) * 32767)))) := by
  refine ⟨by norm_num, ?_, ?_⟩
  · simpa using (c2_encode_bytes [FVal.finite 1] 0 (by norm_num)).1
  · simpa using (c2_encode_bytes [FVal.finite 1] 0 (by norm_num)).2

/-- Claim C3: decode always yields `floor(L/2)` samples — `L/2` for even
`L`, `(L-1)/2` for odd `L` (trailing byte dropped) — and the empty buffer
decodes to the empty output. -/
theorem c3_decode_length :
    (∀ bs : List ℕ, (pcm16ToFloat bs).length = bs.length / 2) ∧
    (∀ bs : List ℕ, bs.length % 2 = 0 → (pcm16ToFloat bs).length = bs.length / 2) ∧
    (∀ bs : List ℕ, bs.length % 2 = 1 →
      (pcm16ToFloat bs).length = (bs.length - 1) / 2) ∧
    pcm16ToFloat [] = [] := by
  refine ⟨fun bs => pcm16ToFloat_length bs, fun bs _ => pcm16ToFloat_length bs,
    fun bs h => ?_, rfl⟩
  rw [pcm16ToFloat_length]
  omega

/-- Concrete instantiation of `c3_decode_length` at an odd-length buffer:
three bytes decode to one sample. -/
theorem c3_witness :
    ([0, 0, 5] : List ℕ).length % 2 = 1 ∧
    (pcm16ToFloat [0, 0, 5]).length = (([0, 0, 5] : List ℕ).length - 1) / 2 :=
  ⟨by norm_num, c3_decode_length.2.2.1 [0, 0, 5] (by norm_num)⟩

/-- Claim C4: encode returns exactly `2N` bytes for `N` input samples, and
the empty input yields the empty byte buffer. -/
theorem c4_encode_length :
    (∀ ss : List FVal, (floatToPcm16 ss).length = 2 * ss.length) ∧
    floatToPcm16 [] = [] :=
  ⟨floatToPcm16_length, rfl⟩

/-- Claim C5 (amended): for every sample value `s` in `[-1, 1]`,
`decode(encode([s]))[0]` differs from `s` by less than `1/16384`
(= 2/32768).  The originally claimed tolerance `1/32767` fails for inputs
that are not near the negative extreme; see `c5_counterexample`. -/
theorem c5_roundtrip_within (s : ℚ) (h1 : -1 ≤ s) (h2 : s ≤ 1) :
    |roundTrip s - s| < 1 / 16384 := by
  rw [roundTrip_eq]
  unfold encSample
  rw [clampQ_finite_of_mem s h1 h2]
  obtain ⟨hl, hu⟩ := ratTrunc_fl32_bounds (s * 32767) (by nlinarith) (by nlinarith)
  rw [abs_sub_lt_iff]
  constructor <;> linarith

/-- Counterexample to claim C5 as stated: the sample value
`s = 7549747/8388608` (the IEEE-754 single-precision value closest to 0.9
— positive, hence not near the negative extreme) round-trips to
`29490/32768`, an error of `307/8388608 ≈ 3.66e-5`, which exceeds the
claimed tolerance `1/32767 ≈ 3.05e-5`. -/
theorem c5_counterexample :
    (0 : ℚ) ≤ 7549747 / 8388608 ∧ (7549747 / 8388608 : ℚ) ≤ 1 ∧
    ¬(|roundTrip (7549747 / 8388608) - 7549747 / 8388608| ≤ 1 / 32767) := by
  refine ⟨by norm_num, by norm_num, ?_⟩
  rw [roundTrip_eq, encSample_c5_input]
  rw [abs_of_neg (by norm_num)]
  norm_num

/-- Concrete instantiation of `c5_roundtrip_within` at `s = 1/2`. -/
theorem c5_witness :
    (-1 : ℚ) ≤ 1 / 2 ∧ (1 / 2 : ℚ) ≤ 1 ∧
    |roundTrip (1 / 2) - 1 / 2| < 1 / 16384 :=
  ⟨by norm_num, by norm_num, c5_roundtrip_within (1 / 2) (by norm_num) (by norm_num)⟩

/-- Claim C6: out-of-range inputs are clamped to the boundary:
`encode([1.5]) = encode([1.0])`, both producing int16 32767
(bytes `[0xFF, 0x7F]`), and `encode([-2.0]) = encode([-1.0])`, both
producing int16 -32767. -/
theorem c6_clamping :
    floatToPcm16 [FVal.finite (3 / 2)] = floatToPcm16 [FVal.finite 1] ∧
    floatToPcm16 [FVal.finite 1] = [0xFF, 0x7F] ∧
    floatToPcm16 [FVal.finite (-2)] = floatToPcm16 [FVal.finite (-1)] ∧
    encSample (FVal.finite (-2)) = -32767 ∧
    encSample (FVal.finite (-1)) = -32767 := by
  refine ⟨?_, ?_, ?_, encSample_neg_two, encSample_neg_one⟩
  · rw [floatToPcm16_single, floatToPcm16_single, encSample_three_halves,
      encSample_one]
  · rw [floatToPcm16_single, encSample_one]
    decide
  · rw [floatToPcm16_single, floatToPcm16_single, encSample_neg_two,
      encSample_neg_one]

/-- Claim C7: both operations are total — every byte buffer (any length or
byte pattern) decodes to a result of `floor(L/2)` samples, and every sample
sequence (the type `FVal` includes NaN and both infinities) encodes to a
result of `2N` bytes; no input shape is rejected. -/
theorem c7_totality :
    (∀ bs : List ℕ, (pcm16ToFloat bs).length = bs.length / 2) ∧
    (∀ ss : List FVal, (floatToPcm16 ss).length = 2 * ss.length) :=
  ⟨pcm16ToFloat_length, floatToPcm16_length⟩

/-- Claim C8: decode and encode are deterministic pure functions — equal
inputs give equal outputs, and each output depends only on the call's own
input (the model has no state threaded between calls, matching the
source, which reads only its argument and touches no global). -/
theorem c8_determinism :
    (∀ b1 b2 : List ℕ, b1 = b2 → pcm16ToFloat b1 = pcm16ToFloat b2) ∧
    (∀ s1 s2 : List FVal, s1 = s2 → floatToPcm16 s1 = floatToPcm16 s2) :=
  ⟨fun _ _ h => h ▸ rfl, fun _ _ h => h ▸ rfl⟩

/-- Concrete instantiation of `c8_determinism` at equal inputs. -/
theorem c8_witness :
    pcm16ToFloat [0, 128] = pcm16ToFloat [0, 128] ∧
    floatToPcm16 [FVal.finite 1] = floatToPcm16 [FVal.finite 1] :=
  ⟨c8_determinism.1 [0, 128] [0, 128] rfl,
   c8_determinism.2 [FVal.finite 1] [FVal.finite 1] rfl⟩

/-- Claim C9: a NaN sample is clamped to 1 (because `std::min(1.0f, NaN)`
returns its first argument) and encodes to int16 32767, bytes
`[0xFF, 0x7F]`; a +infinity sample likewise encodes to 32767, and a
-infinity sample encodes to -32767. -/
theorem c9_special_values (ss : List FVal) (i : ℕ) (h : i < ss.length) :
    (ss.get ⟨i, h⟩ = FVal.nan →
      stdMin (FVal.finite 1) FVal.nan = FVal.finite 1 ∧
      clampQ (ss.get ⟨i, h⟩) = 1 ∧
      encSample (ss.get ⟨i, h⟩) = 32767 ∧
      (floatToPcm16 ss)[2 * i]? = some 0xFF ∧
      (floatToPcm16 ss)[2 * i + 1]? = some 0x7F) ∧
    (ss.get ⟨i, h⟩ = FVal.inf →
      encSample (ss.get ⟨i, h⟩) = 32767 ∧
      (floatToPcm16 ss)[2 * i]? = some 0xFF ∧
      (floatToPcm16 ss)[2 * i + 1]? = some 0x7F) ∧
    (ss.get ⟨i, h⟩ = FVal.neginf → encSample (ss.get ⟨i, h⟩) = -32767) := by
  obtain ⟨e1, e2⟩ := floatToPcm16_getElem ss i h
  refine ⟨fun hn => ?_, fun hn => ?_, fun hn => ?_⟩
  · rw [hn] at e1 e2 ⊢
    rw [encSample_nan, loByte_32767] at e1
    rw [encSample_nan, hiByte_32767] at e2
    exact ⟨rfl, rfl, encSample_nan, e1, e2⟩
  · rw [hn] at e1 e2 ⊢
    rw [encSample_posinf, loByte_32767] at e1
    rw [encSample_posinf, hiByte_32767] at e2
    exact ⟨encSample_posinf, e1, e2⟩
  · rw [hn]
    exact encSample_neginf

/-- Concrete instantiation of `c9_special_values` at the one-sample input
`[NaN]`, index 0. -/
theorem c9_witness :
    stdMin (FVal.finite 1) FVal.nan = FVal.finite 1 ∧
    clampQ (([FVal.nan] : List FVal).get ⟨0, by norm_num⟩) = 1 ∧
    encSample (([FVal.nan] : List FVal).get ⟨0, by norm_num⟩) = 32767 ∧
    (floatToPcm16 [FVal.nan])[2 * 0]? = some 0xFF ∧
    (floatToPcm16 [FVal.nan])[2 * 0 + 1]? = some 0x7F :=
  (c9_special_values [FVal.nan] 0 (by norm_num)).1 rfl

/-- Claim C10: every int16 produced by encode lies in `[-32767, 32767]`;
the value -32768 — byte pair `(0x00, 0x80)` at an aligned offset — is
never produced, for any input. -/
theorem c10_range_invariant (ss : List FVal) (i : ℕ) (h : i < ss.length) :
    -32767 ≤ encSample (ss.get ⟨i, h⟩) ∧
    encSample (ss.get ⟨i, h⟩) ≤ 32767 ∧
    ¬((floatToPcm16 ss)[2 * i]? = some 0x00 ∧
      (floatToPcm16 ss)[2 * i + 1]? = some 0x80) := by
  obtain ⟨r1, r2⟩ := encSample_range (ss.get ⟨i, h⟩)
  obtain ⟨e1, e2⟩ := floatToPcm16_getElem ss i h
  refine ⟨r1, r2, ?_⟩
  rintro ⟨hA, hB⟩
  rw [e1] at hA
  rw [e2] at hB
  simp only [Option.some.injEq] at hA hB
  unfold loByte at hA
  unfold hiByte at hB
  omega

/-- Concrete instantiation of `c10_range_invariant` at the one-sample
input `[0.0]`, index 0. -/
theorem c10_witness :
    -32767 ≤ encSample (([FVal.finite 0] : List FVal).get ⟨0, by norm_num⟩) ∧
    encSample (([FVal.finite 0] : List FVal).get ⟨0, by norm_num⟩) ≤ 32767 ∧
    ¬((floatToPcm16 [FVal.finite 0])[2 * 0]? = some 0x00 ∧
      (floatToPcm16 [FVal.finite 0])[2 * 0 + 1]? = some 0x80) :=
  c10_range_invariant [FVal.finite 0] 0 (by norm_num)

end FluidAudio
